import Mathlib

/-!
# Verification of the typing-practice core of `re-touch-typing`

A shallow embedding of the three algorithmic components of the repository:

* the Session Scorer — the pure computation of the `POST` handler in
  `src/app/api/analyze-session/route.ts`;
* the Text Normalizer — `cleanAndPadWords`, `ensureAllLetters` and
  `getMissingLetters` in the `generate-text` route;
* the Performance Aggregator — `aggregatedPerformance` in `src/app/page.tsx`,
  together with the deterministic fallback text of its `fetchText`.

JavaScript numbers are modelled as `ℚ` (times, averages) or `Nat`/`Int`
(counts, timestamps); `Math.round` becomes `jsRound`.  The pseudo-random
draws of `ensureAllLetters` are modelled by two streams of naturals, reduced
into the exact ranges `Math.floor(Math.random() * n)` can produce, so that a
statement quantified over the streams covers every possible outcome of the
random slot choices.
-/

set_option maxRecDepth 10000

namespace TouchTyping

def jsRound (x : ℚ) : Int := ⌊x + 1/2⌋

def jsSliceLast (n : Nat) (l : List α) : List α := l.drop (l.length - n)

structure Keystroke where
  char : String
  expected : String
  timestamp : Int
  key : String
  isCorrect : Bool
  wordIndex : Nat
  charIndex : Nat
deriving DecidableEq, Repr

structure StrugglingKey where
  key : String
  errorCount : Nat
  avgDelay : Int
deriving DecidableEq, Repr

structure SessionResult where
  wpm : Int
  accuracy : Int
  strugglingKeys : List StrugglingKey
  totalKeystrokes : Nat
  correctKeystrokes : Nat
  timeElapsed : ℚ
  completedWords : Nat
  totalWords : Nat
deriving DecidableEq, Repr

structure Challenge where
  id : String
  text : String
  keystrokes : List Keystroke
  result : Option SessionResult
  startTime : Option Int
  endTime : Option Int
deriving DecidableEq, Repr

structure KeyCount where
  key : String
  errorCount : Nat
deriving DecidableEq, Repr

structure PerformanceData where
  strugglingKeys : List KeyCount
  accuracy : Int
  wpm : Int
  recentErrors : List String
deriving DecidableEq, Repr

def bumpAssoc (upd : β → β) (ini : β) : List (String × β) → String → List (String × β)
  | [], key => [(key, ini)]
  | (k, v) :: rest, key =>
    if k = key then (k, upd v) :: rest else (k, v) :: bumpAssoc upd ini rest key

def lookupA (m : List (String × β)) (key : String) : Option β :=
  (m.find? (fun e => e.1 == key)).map (fun e => e.2)

def keysOf (m : List (String × β)) : List String := m.map (fun e => e.1)

def bumpFold (keyOf : ε → String) (upd : ε → β → β) (ini : ε → β)
    (m : List (String × β)) (events : List ε) : List (String × β) :=
  events.foldl (fun m e => bumpAssoc (upd e) (ini e) m (keyOf e)) m

def newKeys (seen : List String) : List String → List String
  | [] => []
  | k :: ks => if k ∈ seen then newKeys seen ks else k :: newKeys (seen ++ [k]) ks

def firstIdx (l : List String) (a : String) : Nat := l.findIdx (fun x => x == a)

def insertDescBy (f : α → Nat) (x : α) : List α → List α
  | [] => [x]
  | y :: ys => if f y ≤ f x then x :: y :: ys else y :: insertDescBy f x ys

def sortDescBy (f : α → Nat) : List α → List α
  | [] => []
  | x :: xs => insertDescBy f x (sortDescBy f xs)

structure KeyErrData where
  errors : Nat
  delays : List Int
deriving DecidableEq, Repr

def jsToLower (s : String) : String := String.mk (s.toList.map Char.toLower)

def errKeystroke (k : Keystroke) : Bool :=
  !k.isCorrect && k.key != "Backspace"

def addErr (m : List (String × KeyErrData)) (key : String) (d : Option Int) :
    List (String × KeyErrData) :=
  bumpAssoc (fun v => ⟨v.errors + 1, v.delays ++ d.toList⟩) ⟨1, d.toList⟩ m key

def keyErrorsAux : Option Keystroke → List (String × KeyErrData) → List Keystroke →
    List (String × KeyErrData)
  | _, m, [] => m
  | prev, m, k :: rest =>
    let m' := if errKeystroke k then
        addErr m (jsToLower k.expected) (prev.map (fun p => k.timestamp - p.timestamp))
      else m
    keyErrorsAux (some k) m' rest

def buildKeyErrors (keystrokes : List Keystroke) : List (String × KeyErrData) :=
  keyErrorsAux none [] keystrokes

def errEventsFrom : Option Keystroke → List Keystroke → List (String × Option Int)
  | _, [] => []
  | prev, k :: rest =>
    (if errKeystroke k then
        [((jsToLower k.expected), prev.map (fun p => k.timestamp - p.timestamp))]
      else []) ++ errEventsFrom (some k) rest

def errKeys (keystrokes : List Keystroke) : List String :=
  keystrokes.filterMap
    (fun k => if errKeystroke k then some (jsToLower k.expected) else none)

def errCount (keystrokes : List Keystroke) (key : String) : Nat :=
  (keystrokes.filter (fun k => errKeystroke k && (jsToLower k.expected) == key)).length

def firstErrIdx (keystrokes : List Keystroke) (key : String) : Nat :=
  keystrokes.findIdx (fun k => errKeystroke k && (jsToLower k.expected) == key)

def toStrugglingKey (e : String × KeyErrData) : StrugglingKey :=
  ⟨e.1, e.2.errors,
    if 0 < e.2.delays.length then jsRound ((e.2.delays.sum : ℚ) / (e.2.delays.length : ℚ))
    else 0⟩

def analyzeSession (keystrokes : List Keystroke) (timeElapsed : ℚ)
    (completedWords totalWords : Nat) : SessionResult :=
  let totalKeystrokes := keystrokes.length
  let correctKeystrokes := (keystrokes.filter (fun k => k.isCorrect)).length
  let accuracy : Int := if 0 < totalKeystrokes then
      jsRound (((correctKeystrokes : ℚ) / (totalKeystrokes : ℚ)) * 100)
    else 0
  let timeInMinutes := timeElapsed / 60
  let charactersTyped := (keystrokes.filter (fun k => k.key != "Backspace")).length
  let wpm : Int := if 0 < timeInMinutes then
      jsRound (((charactersTyped : ℚ) / 5) / timeInMinutes)
    else 0
  let strugglingKeys :=
    (sortDescBy (fun e => e.errorCount)
      ((buildKeyErrors keystrokes).map toStrugglingKey)).take 5
  { wpm := wpm, accuracy := accuracy, strugglingKeys := strugglingKeys,
    totalKeystrokes := totalKeystrokes, correctKeystrokes := correctKeystrokes,
    timeElapsed := timeElapsed, completedWords := completedWords,
    totalWords := totalWords }

def isLowerAZ (c : Char) : Bool := 'a' ≤ c && c ≤ 'z'

def jsWhitespace (c : Char) : Bool :=
  c = ' ' || c = '\t' || c = '\n' || c = '\r' || c = '\x0b' || c = '\x0c'

def splitOnP (p : Char → Bool) : List Char → List (List Char)
  | [] => [[]]
  | c :: cs =>
    match splitOnP p cs with
    | [] => [[]]
    | w :: ws => if p c then [] :: w :: ws else (c :: w) :: ws

def alphabetCoverageWords (c : Char) : List String :=
  if c = 'q' then ["quick", "quiet", "queen", "quiz", "quote"]
  else if c = 'x' then ["box", "fox", "mix", "fix", "next", "text", "exam"]
  else if c = 'z' then ["zero", "zone", "size", "maze", "jazz", "fizz", "buzz"]
  else if c = 'j' then ["just", "jump", "join", "job", "joy", "major"]
  else if c = 'k' then ["keep", "know", "kind", "key", "kick", "make", "take"]
  else if c = 'v' then ["very", "have", "give", "live", "move", "over", "view"]
  else if c = 'w' then ["with", "will", "work", "want", "way", "new", "now"]
  else []

def fallbackWords : List String :=
  ["the", "and", "for", "are", "but", "not", "you", "all", "can", "had",
   "her", "was", "one", "our", "out", "day", "get", "has", "him", "his",
   "how", "its", "may", "new", "now", "old", "see", "way", "who", "boy",
   "did", "let", "put", "say", "she", "too", "use", "add", "ago", "air",
   "also", "ask", "back", "been", "best", "big", "both", "call", "came",
   "come", "could", "down", "each", "end", "even", "few", "find", "first",
   "from", "give", "good", "great", "hand", "have", "help", "here", "high",
   "home", "just", "keep", "kind", "know", "last", "left", "life", "like",
   "line", "live", "long", "look", "made", "make", "many", "more", "most",
   "much", "must", "name", "need", "next", "only", "open", "over", "own"]

def alphabetList : List Char := "abcdefghijklmnopqrstuvwxyz".toList

def getMissingLetters (text : String) : List Char :=
  let textLower := text.toList.map Char.toLower
  alphabetList.filter (fun letter => !(textLower.contains letter))

def coverageStep (off pick : Nat) (result : List String) (letter : Char) : List String :=
  let coverageWords := alphabetCoverageWords letter
  if 0 < coverageWords.length then
    let insertIndex := result.length / 2 + off % 10
    let wordToAdd := coverageWords.getD (pick % coverageWords.length) ""
    if insertIndex < result.length then result.set insertIndex wordToAdd
    else result ++ [wordToAdd]
  else
    match fallbackWords.find? (fun w => w.contains letter) with
    | some wordWithLetter =>
      let insertIndex := result.length / 2 + off % 10
      if insertIndex < result.length then result.set insertIndex wordWithLetter
      else result
    | none => result

def ensureLoop (offs picks : Nat → Nat) : List Char → Nat → List String → List String
  | [], _, result => result
  | letter :: rest, i, result =>
    ensureLoop offs picks rest (i + 1) (coverageStep (offs i) (picks i) result letter)

def ensureAllLetters (words : List String) (offs picks : Nat → Nat) : List String :=
  let text := String.intercalate (" ") words
  let missing := getMissingLetters text
  if missing.length = 0 then words
  else (ensureLoop offs picks missing 0 words).take 90

def cleanChars (text : String) : List Char :=
  (text.toList.map Char.toLower).filter (fun c => isLowerAZ c || jsWhitespace c)

def cleanTokens (text : String) : List String :=
  (((splitOnP jsWhitespace (cleanChars text)).map String.mk).filter
    (fun word => 0 < word.length && word.length ≤ 10)).take 90

def padWords : Nat → List String → List String
  | 0, words => words
  | fuel + 1, words =>
    if words.length < 90 then
      padWords fuel (words ++ [fallbackWords.getD (words.length % fallbackWords.length) ""])
    else words

def cleanAndPadWords (text : String) (offs picks : Nat → Nat) : List String :=
  ensureAllLetters (padWords 90 (cleanTokens text)) offs picks

def isToken (w : String) : Bool :=
  0 < w.length && w.length ≤ 10 && w.toList.all isLowerAZ

def recentErrKeystroke (k : Keystroke) : Bool :=
  !k.isCorrect && k.expected != "" && k.key != "Backspace"

def addKeyCount (m : List (String × Nat)) (sk : StrugglingKey) : List (String × Nat) :=
  bumpAssoc (fun n => n + sk.errorCount) sk.errorCount m sk.key

def scoredChallenges (challenges : List Challenge) : List (Challenge × SessionResult) :=
  challenges.filterMap (fun c => c.result.map (fun r => (c, r)))

def aggregatedPerformance (challenges : List Challenge) : Option PerformanceData :=
  if challenges.length = 0 then none
  else
    let scored := scoredChallenges challenges
    let sessionCount := scored.length
    if sessionCount = 0 then none
    else
      let totalAccuracy : Int := (scored.map (fun p => p.2.accuracy)).sum
      let totalWpm : Int := (scored.map (fun p => p.2.wpm)).sum
      let keyErrorMap :=
        (scored.flatMap (fun p => p.2.strugglingKeys)).foldl addKeyCount []
      let recentErrors :=
        scored.flatMap (fun p =>
          p.1.keystrokes.filterMap
            (fun k => if recentErrKeystroke k then some k.expected else none))
      some
        { strugglingKeys :=
            (sortDescBy (fun e => e.errorCount)
              (keyErrorMap.map (fun e => KeyCount.mk e.1 e.2))).take 8,
          accuracy := jsRound ((totalAccuracy : ℚ) / (sessionCount : ℚ)),
          wpm := jsRound ((totalWpm : ℚ) / (sessionCount : ℚ)),
          recentErrors := jsSliceLast 50 recentErrors }

def sumErrFor (challenges : List Challenge) (key : String) : Nat :=
  ((((scoredChallenges challenges).flatMap (fun p => p.2.strugglingKeys)).filter
    (fun sk => sk.key == key)).map (fun sk => sk.errorCount)).sum

def fetchTextFallback : String :=
  "the quick brown fox jumps over the lazy dog and runs into the forest where animals live in peace under tall trees that give shade from the hot sun while birds sing their songs high above in branches where they build nests to raise young ones who will soon fly and explore the world"

def fetchTextFallbackTokens : List String :=
  (splitOnP (fun c => c = ' ') fetchTextFallback.toList).map String.mk

def errUpd (e : String × Option Int) (v : KeyErrData) : KeyErrData :=
  ⟨v.errors + 1, v.delays ++ e.2.toList⟩

def errIni (e : String × Option Int) : KeyErrData := ⟨1, e.2.toList⟩

def errsAt (m : List (String × KeyErrData)) (key : String) : Nat :=
  match lookupA m key with
  | some v => v.errors
  | none => 0

def kOK : Keystroke := ⟨"a", "a", 0, "a", true, 0, 0⟩

def resZero : SessionResult := ⟨0, 0, [], 0, 0, 0, 0, 0⟩

def ksEmptyExp : List Keystroke := [⟨"x", "", 5, "x", false, 0, 0⟩]

def chEmptyExp : Challenge := ⟨"e", "", ksEmptyExp, some resZero, none, none⟩

def ksOldErrors : List Keystroke := List.replicate 50 ⟨"b", "a", 0, "b", false, 0, 0⟩

def chOld : Challenge := ⟨"old", "", ksOldErrors, some resZero, none, none⟩

def chNew : Challenge := ⟨"new", "", [⟨"a", "b", 0, "a", false, 0, 0⟩], some resZero, none, none⟩

def c5Challenges : List Challenge := [chNew, chOld]

def countAt (m : List (String × Nat)) (key : String) : Nat :=
  match lookupA m key with
  | some n => n
  | none => 0

def aggKeyOf (sk : StrugglingKey) : String := sk.key

def aggUpd (sk : StrugglingKey) (n : Nat) : Nat := n + sk.errorCount

def aggIni (sk : StrugglingKey) : Nat := sk.errorCount

def c7Challenge : Challenge :=
  ⟨"w", "", [], some ⟨5, 80, [⟨"a", 2, 0⟩], 10, 8, 60, 0, 0⟩, none, none⟩

def c7List : List Challenge := [c7Challenge]

theorem splitOnP_chars (p : Char → Bool) (cs : List Char) :
    ∀ w ∈ splitOnP p cs, ∀ c ∈ w, c ∈ cs ∧ ¬p c := by
  induction cs with
  | nil => intro w hw c hc; simp [splitOnP] at hw; simp [hw] at hc
  | cons a cs ih =>
    intro w hw c hc
    simp only [splitOnP] at hw
    cases h : splitOnP p cs with
    | nil => rw [h] at hw; simp at hw; simp [hw] at hc
    | cons w0 ws =>
      rw [h] at hw
      by_cases hp : p a
      · simp [hp] at hw
        rcases hw with hw | hw
        · simp [hw] at hc
        · have := ih w (by rw [h]; exact List.mem_cons.mpr hw) c hc
          exact ⟨List.mem_cons_of_mem _ this.1, this.2⟩
      · simp [hp] at hw
        rcases hw with rfl | hw
        · rcases List.mem_cons.mp hc with rfl | hc
          · exact ⟨List.mem_cons_self _ _, hp⟩
          · have := ih w0 (by rw [h]; exact List.mem_cons_self _ _) c hc
            exact ⟨List.mem_cons_of_mem _ this.1, this.2⟩
        · have := ih w (by rw [h]; exact List.mem_cons_of_mem _ hw) c hc
          exact ⟨List.mem_cons_of_mem _ this.1, this.2⟩

theorem cleanTokens_isToken (text : String) : ∀ w ∈ cleanTokens text, isToken w := by
  intro w hw
  unfold cleanTokens at hw
  have hw' := List.mem_of_mem_take hw
  have hmem := List.mem_filter.mp hw'
  rcases List.mem_map.mp hmem.1 with ⟨u, hu, rfl⟩
  have hlen : 0 < (String.mk u).length ∧ (String.mk u).length ≤ 10 := by
    have := hmem.2; simp at this; exact this
  unfold isToken
  simp only [Bool.and_eq_true, decide_eq_true_eq, List.all_eq_true]
  refine ⟨⟨by simpa using hlen.1, by simpa using hlen.2⟩, ?_⟩
  intro c hc
  have hc' : c ∈ u := by simpa using hc
  have := splitOnP_chars jsWhitespace (cleanChars text) u hu c hc'
  have hcc : c ∈ cleanChars text := this.1
  have hnw : ¬jsWhitespace c := this.2
  unfold cleanChars at hcc
  have := (List.mem_filter.mp hcc).2
  simp only [Bool.or_eq_true] at this
  rcases this with h | h
  · exact h
  · exact absurd h hnw

theorem cleanTokens_len (text : String) : (cleanTokens text).length ≤ 90 := by
  unfold cleanTokens
  exact List.length_take_le _ _

theorem fallbackWords_isToken : ∀ w ∈ fallbackWords, isToken w :=
  List.all_eq_true.mp (by decide)

theorem coverage_isToken (c : Char) : ∀ w ∈ alphabetCoverageWords c, isToken w := by
  intro w hw
  unfold alphabetCoverageWords at hw
  split at hw
  · exact List.all_eq_true.mp (by decide) w hw
  · split at hw
    · exact List.all_eq_true.mp (by decide) w hw
    · split at hw
      · exact List.all_eq_true.mp (by decide) w hw
      · split at hw
        · exact List.all_eq_true.mp (by decide) w hw
        · split at hw
          · exact List.all_eq_true.mp (by decide) w hw
          · split at hw
            · exact List.all_eq_true.mp (by decide) w hw
            · split at hw
              · exact List.all_eq_true.mp (by decide) w hw
              · simp at hw

theorem padWords_spec : ∀ (fuel : Nat) (ws : List String),
    90 ≤ ws.length + fuel → ws.length ≤ 90 → (∀ w ∈ ws, isToken w) →
    (padWords fuel ws).length = 90 ∧ ∀ w ∈ padWords fuel ws, isToken w := by
  intro fuel
  induction fuel with
  | zero =>
    intro ws h1 h2 h3
    simp only [padWords]
    exact ⟨by omega, h3⟩
  | succ n ih =>
    intro ws h1 h2 h3
    simp only [padWords]
    by_cases hlt : ws.length < 90
    · simp only [hlt, if_true]
      have hidx : ws.length % fallbackWords.length < fallbackWords.length := by
        apply Nat.mod_lt; decide
      have hmem : fallbackWords.getD (ws.length % fallbackWords.length) "" ∈ fallbackWords := by
        rw [List.getD_eq_getElem _ _ hidx]
        exact List.getElem_mem _
      apply ih
      · simp; omega
      · simp; omega
      · intro w hw
        rcases List.mem_append.mp hw with h | h
        · exact h3 w h
        · rcases List.mem_singleton.mp h with rfl
          exact fallbackWords_isToken _ hmem
    · simp only [hlt, if_false]
      exact ⟨by omega, h3⟩

theorem coverageStep_spec (off pick : Nat) (result : List String) (letter : Char)
    (hlen : result.length = 90) (htok : ∀ w ∈ result, isToken w) :
    (coverageStep off pick result letter).length = 90 ∧
    ∀ w ∈ coverageStep off pick result letter, isToken w := by
  unfold coverageStep
  by_cases hc : 0 < (alphabetCoverageWords letter).length
  · simp only [hc, if_true]
    have hidx : result.length / 2 + off % 10 < result.length := by
      have : off % 10 < 10 := Nat.mod_lt _ (by omega)
      omega
    simp only [hidx, if_true]
    have hwmem : (alphabetCoverageWords letter).getD
        (pick % (alphabetCoverageWords letter).length) "" ∈ alphabetCoverageWords letter := by
      have h2 : pick % (alphabetCoverageWords letter).length <
          (alphabetCoverageWords letter).length := Nat.mod_lt _ hc
      rw [List.getD_eq_getElem _ _ h2]
      exact List.getElem_mem _
    constructor
    · simp [hlen]
    · intro w hw
      rcases List.mem_or_eq_of_mem_set hw with h | rfl
      · exact htok w h
      · exact coverage_isToken letter _ hwmem
  · simp only [hc, if_false]
    cases hf : fallbackWords.find? (fun w => w.contains letter) with
    | none => exact ⟨hlen, htok⟩
    | some wl =>
      have hidx : result.length / 2 + off % 10 < result.length := by
        have : off % 10 < 10 := Nat.mod_lt _ (by omega)
        omega
      simp only [hidx, if_true]
      constructor
      · simp [hlen]
      · intro w hw
        rcases List.mem_or_eq_of_mem_set hw with h | rfl
        · exact htok w h
        · exact fallbackWords_isToken _ (List.mem_of_find?_eq_some hf)

theorem ensureLoop_spec (offs picks : Nat → Nat) :
    ∀ (missing : List Char) (i : Nat) (result : List String),
    result.length = 90 → (∀ w ∈ result, isToken w) →
    (ensureLoop offs picks missing i result).length = 90 ∧
    ∀ w ∈ ensureLoop offs picks missing i result, isToken w := by
  intro missing
  induction missing with
  | nil => intro i result h1 h2; exact ⟨h1, h2⟩
  | cons letter rest ih =>
    intro i result h1 h2
    simp only [ensureLoop]
    have := coverageStep_spec (offs i) (picks i) result letter h1 h2
    exact ih (i + 1) _ this.1 this.2

theorem ensureAllLetters_spec (words : List String) (offs picks : Nat → Nat)
    (hlen : words.length = 90) (htok : ∀ w ∈ words, isToken w) :
    (ensureAllLetters words offs picks).length = 90 ∧
    ∀ w ∈ ensureAllLetters words offs picks, isToken w := by
  unfold ensureAllLetters
  by_cases hm : (getMissingLetters (String.intercalate (" ") words)).length = 0
  · simp only [hm, if_true]
    exact ⟨hlen, htok⟩
  · simp only [hm, if_false]
    have := ensureLoop_spec offs picks (getMissingLetters (String.intercalate (" ") words))
      0 words hlen htok
    constructor
    · rw [List.length_take, this.1]; simp
    · intro w hw
      exact this.2 w (List.mem_of_mem_take hw)

theorem c1_normalizer_output_shape (text : String) (offs picks : Nat → Nat) :
    (cleanAndPadWords text offs picks).length = 90 ∧
    ∀ w ∈ cleanAndPadWords text offs picks, isToken w := by
  unfold cleanAndPadWords
  have hpad := padWords_spec 90 (cleanTokens text)
    (by have := cleanTokens_len text; omega) (cleanTokens_len text)
    (cleanTokens_isToken text)
  exact ensureAllLetters_spec _ offs picks hpad.1 hpad.2

theorem intercalate_go_chars : ∀ (as : List String) (acc s : String) (c : Char),
    c ∈ (String.intercalate.go acc s as).data →
    c ∈ acc.data ∨ c ∈ s.data ∨ ∃ w ∈ as, c ∈ w.data := by
  intro as
  induction as with
  | nil => intro acc s c h; exact Or.inl h
  | cons a as ih =>
    intro acc s c h
    have := ih (acc ++ s ++ a) s c h
    rcases this with h1 | h2 | h3
    · rw [String.data_append, String.data_append] at h1
      rcases List.mem_append.mp h1 with h1 | h1
      · rcases List.mem_append.mp h1 with h1 | h1
        · exact Or.inl h1
        · exact Or.inr (Or.inl h1)
      · exact Or.inr (Or.inr ⟨a, List.mem_cons_self _ _, h1⟩)
    · exact Or.inr (Or.inl h2)
    · rcases h3 with ⟨w, hw, hc⟩
      exact Or.inr (Or.inr ⟨w, List.mem_cons_of_mem _ hw, hc⟩)

theorem intercalate_space_chars (ws : List String) (c : Char)
    (h : c ∈ (String.intercalate (" ") ws).data) :
    c = ' ' ∨ ∃ w ∈ ws, c ∈ w.data := by
  cases ws with
  | nil => simp [String.intercalate] at h
  | cons a as =>
    have := intercalate_go_chars as a (" ") c h
    rcases this with h1 | h2 | h3
    · exact Or.inr ⟨a, List.mem_cons_self _ _, h1⟩
    · left
      have : (" " : String).data = [' '] := rfl
      rw [this] at h2
      simpa using h2
    · rcases h3 with ⟨w, hw, hc⟩
      exact Or.inr ⟨w, List.mem_cons_of_mem _ hw, hc⟩

theorem toLower_of_isLowerAZ (c : Char) (h : isLowerAZ c) : c.toLower = c := by
  unfold isLowerAZ at h
  simp only [Bool.and_eq_true, decide_eq_true_eq] at h
  have h1 : ('a' : Char).val ≤ c.val := Char.le_def.mp h.1
  have h2 : 97 ≤ c.toNat := by
    rw [UInt32.le_def, BitVec.le_def] at h1
    exact h1
  unfold Char.toLower
  have : ¬(65 ≤ c.toNat ∧ c.toNat ≤ 90) := by omega
  simp [this]

theorem c2_counterexample :
    'q' ∈ alphabetList ∧
    'q' ∉ (String.intercalate (" ") (cleanAndPadWords ("") (fun _ => 0) (fun _ => 0))).toList := by
  constructor
  · decide
  · decide

theorem c2_alphabet_coverage_amended (text : String) (offs picks : Nat → Nat)
    (h : getMissingLetters (String.intercalate (" ") (padWords 90 (cleanTokens text))) = []) :
    ∀ c ∈ alphabetList, ∃ w ∈ cleanAndPadWords text offs picks, c ∈ w.toList := by
  intro c hc
  have hpad := padWords_spec 90 (cleanTokens text)
    (by have := cleanTokens_len text; omega) (cleanTokens_len text)
    (cleanTokens_isToken text)
  have hout : cleanAndPadWords text offs picks = padWords 90 (cleanTokens text) := by
    unfold cleanAndPadWords ensureAllLetters
    simp only []
    rw [h]
    simp
  rw [hout]
  have hcont : ((String.intercalate (" ") (padWords 90 (cleanTokens text))).toList.map
      Char.toLower).contains c = true := by
    unfold getMissingLetters at h
    rw [List.filter_eq_nil_iff] at h
    have := h c hc
    simp only [Bool.not_eq_true', Bool.not_eq_false] at this
    exact this
  have hmem : c ∈ (String.intercalate (" ") (padWords 90 (cleanTokens text))).toList.map
      Char.toLower := by
    simpa using hcont
  rcases List.mem_map.mp hmem with ⟨d, hd, hdc⟩
  have hd' : d ∈ (String.intercalate (" ") (padWords 90 (cleanTokens text))).data := hd
  rcases intercalate_space_chars _ d hd' with rfl | ⟨w, hw, hcw⟩
  · exfalso
    have : c = ' ' := by rw [← hdc]; rfl
    rw [this] at hc
    exact absurd hc (by decide)
  · have htokw := hpad.2 w hw
    unfold isToken at htokw
    simp only [Bool.and_eq_true, List.all_eq_true] at htokw
    have hdaz : isLowerAZ d := htokw.2 d hcw
    have : d = c := by rw [← hdc, toLower_of_isLowerAZ d hdaz]
    subst this
    exact ⟨w, hw, hcw⟩

theorem c2_witness :
    getMissingLetters (String.intercalate (" ")
      (padWords 90 (cleanTokens ("abcdefghij klmnopqrst uvwxyz")))) = [] ∧
    ∀ c ∈ alphabetList, ∃ w ∈ cleanAndPadWords ("abcdefghij klmnopqrst uvwxyz")
      (fun _ => 0) (fun _ => 0), c ∈ w.toList :=
  ⟨by decide,
   c2_alphabet_coverage_amended ("abcdefghij klmnopqrst uvwxyz")
     (fun _ => 0) (fun _ => 0) (by decide)⟩

theorem c9_counterexample : fetchTextFallbackTokens.length ≠ 90 := by
  decide

theorem c9_fallback_amended :
    fetchTextFallbackTokens.length = 54 ∧
    (∀ w ∈ fetchTextFallbackTokens, isToken w) ∧
    ∀ c ∈ alphabetList, c ∈ fetchTextFallback.toList := by
  refine ⟨by decide, ?_, by decide⟩
  intro w hw
  exact List.all_eq_true.mp (by decide) w hw

theorem bumpAssoc_keys (upd : β → β) (ini : β) (m : List (String × β)) (key : String) :
    keysOf (bumpAssoc upd ini m key) =
      if key ∈ keysOf m then keysOf m else keysOf m ++ [key] := by
  induction m with
  | nil => simp [bumpAssoc, keysOf]
  | cons e rest ih =>
    obtain ⟨k, v⟩ := e
    by_cases hk : k = key
    · subst hk
      simp [bumpAssoc, keysOf]
    · simp only [bumpAssoc, hk, if_false]
      unfold keysOf at *
      simp only [List.map_cons]
      rw [ih]
      by_cases hmem : key ∈ rest.map (fun e => e.1)
      · simp [hmem, hk, Ne.symm hk]
      · simp [hmem, hk, Ne.symm hk]

theorem lookupA_bumpAssoc_same (upd : β → β) (ini : β) (m : List (String × β)) (key : String) :
    lookupA (bumpAssoc upd ini m key) key =
      some (match lookupA m key with | some v => upd v | none => ini) := by
  induction m with
  | nil => simp [bumpAssoc, lookupA]
  | cons e rest ih =>
    obtain ⟨k, v⟩ := e
    by_cases hk : k = key
    · subst hk
      simp [bumpAssoc, lookupA]
    · have hk' : (k == key) = false := by simp [hk]
      simp only [bumpAssoc, hk, if_false]
      unfold lookupA at *
      simp only [List.find?_cons, hk', cond_false]
      exact ih

theorem lookupA_bumpAssoc_other (upd : β → β) (ini : β) (m : List (String × β))
    (key key' : String) (h : key' ≠ key) :
    lookupA (bumpAssoc upd ini m key) key' = lookupA m key' := by
  induction m with
  | nil => simp [bumpAssoc, lookupA, Ne.symm h]
  | cons e rest ih =>
    obtain ⟨k, v⟩ := e
    by_cases hk : k = key
    · subst hk
      have hk' : (k == key') = false := by simp [Ne.symm h]
      simp [bumpAssoc, lookupA, hk']
    · simp only [bumpAssoc, hk, if_false]
      unfold lookupA at *
      by_cases hk2 : k = key'
      · subst hk2
        simp [List.find?_cons]
      · have hk2' : (k == key') = false := by simp [hk2]
        simp only [List.find?_cons, hk2', cond_false]
        exact ih

theorem lookupA_of_mem_nodup (m : List (String × β)) (k : String) (v : β)
    (hnd : (keysOf m).Nodup) (hm : (k, v) ∈ m) : lookupA m k = some v := by
  induction m with
  | nil => simp at hm
  | cons e rest ih =>
    obtain ⟨k0, v0⟩ := e
    rcases List.mem_cons.mp hm with h | h
    · obtain ⟨rfl, rfl⟩ := Prod.mk.injEq .. ▸ h
      · simp [lookupA, List.find?_cons]
    · have hk0 : k0 ≠ k := by
        intro hk0
        subst hk0
        have : k0 ∈ keysOf rest := by
          unfold keysOf
          exact List.mem_map.mpr ⟨(k0, v), h, rfl⟩
        unfold keysOf at hnd
        simp only [List.map_cons, List.nodup_cons] at hnd
        exact hnd.1 this
      have hk0' : (k0 == k) = false := by simp [hk0]
      unfold lookupA
      simp only [List.find?_cons, hk0', cond_false]
      have hnd' : (keysOf rest).Nodup := by
        unfold keysOf at hnd ⊢
        simp only [List.map_cons, List.nodup_cons] at hnd
        exact hnd.2
      exact ih hnd' h

theorem bumpFold_keys (keyOf : ε → String) (upd : ε → β → β) (ini : ε → β) :
    ∀ (events : List ε) (m : List (String × β)),
    keysOf (bumpFold keyOf upd ini m events) =
      keysOf m ++ newKeys (keysOf m) (events.map keyOf) := by
  intro events
  induction events with
  | nil => intro m; simp [bumpFold, newKeys]
  | cons e rest ih =>
    intro m
    have hstep : bumpFold keyOf upd ini m (e :: rest) =
        bumpFold keyOf upd ini (bumpAssoc (upd e) (ini e) m (keyOf e)) rest := rfl
    rw [hstep, ih]
    rw [bumpAssoc_keys]
    by_cases hmem : keyOf e ∈ keysOf m
    · simp only [hmem, if_true, List.map_cons, newKeys, hmem]
    · simp only [hmem, if_false, List.map_cons, newKeys, hmem, if_false]
      rw [List.append_assoc]
      simp

theorem newKeys_mem : ∀ (K : List String) (seen : List String) (x : String),
    x ∈ newKeys seen K → x ∉ seen ∧ x ∈ K := by
  intro K
  induction K with
  | nil => intro seen x h; simp [newKeys] at h
  | cons k ks ih =>
    intro seen x h
    simp only [newKeys] at h
    by_cases hk : k ∈ seen
    · simp only [hk, if_true] at h
      have := ih seen x h
      exact ⟨this.1, List.mem_cons_of_mem _ this.2⟩
    · simp only [hk, if_false] at h
      rcases List.mem_cons.mp h with rfl | h
      · exact ⟨hk, List.mem_cons_self _ _⟩
      · have := ih (seen ++ [k]) x h
        have hx : x ∉ seen := fun hc => this.1 (List.mem_append.mpr (Or.inl hc))
        exact ⟨hx, List.mem_cons_of_mem _ this.2⟩

theorem newKeys_nodup : ∀ (K : List String) (seen : List String),
    seen.Nodup → (seen ++ newKeys seen K).Nodup := by
  intro K
  induction K with
  | nil => intro seen h; simp [newKeys, h]
  | cons k ks ih =>
    intro seen h
    simp only [newKeys]
    by_cases hk : k ∈ seen
    · simp only [hk, if_true]
      exact ih seen h
    · simp only [hk, if_false]
      have h' : (seen ++ [k]).Nodup := by
        simp [List.nodup_append, h, hk]
      have := ih (seen ++ [k]) h'
      rw [List.append_assoc] at this
      simpa using this

theorem newKeys_pairwise : ∀ (K : List String) (seen : List String),
    (newKeys seen K).Pairwise (fun a b => firstIdx K a < firstIdx K b) := by
  intro K
  induction K with
  | nil => intro seen; simp [newKeys]
  | cons k ks ih =>
    intro seen
    simp only [newKeys]
    by_cases hk : k ∈ seen
    · simp only [hk, if_true]
      apply List.Pairwise.imp_of_mem ?_ (ih seen)
      intro a b ha hb hab
      have hak : a ≠ k := fun h => (newKeys_mem ks seen a ha).1 (h ▸ hk)
      have hbk : b ≠ k := fun h => (newKeys_mem ks seen b hb).1 (h ▸ hk)
      unfold firstIdx at *
      rw [List.findIdx_cons, List.findIdx_cons]
      have hak' : (k == a) = false := by simp [Ne.symm hak]
      have hbk' : (k == b) = false := by simp [Ne.symm hbk]
      simp [hak', hbk']
      omega
    · simp only [hk, if_false]
      constructor
      · intro b hb
        have hbmem := newKeys_mem ks (seen ++ [k]) b hb
        have hbk : b ≠ k := by
          intro h
          exact hbmem.1 (List.mem_append.mpr (Or.inr (h ▸ List.mem_singleton_self _)))
        unfold firstIdx
        rw [List.findIdx_cons, List.findIdx_cons]
        have hbk' : (k == b) = false := by simp [Ne.symm hbk]
        simp [hbk']
      · apply List.Pairwise.imp_of_mem ?_ (ih (seen ++ [k]))
        intro a b ha hb hab
        have hak : a ≠ k := by
          intro h
          exact (newKeys_mem ks (seen ++ [k]) a ha).1
            (List.mem_append.mpr (Or.inr (h ▸ List.mem_singleton_self _)))
        have hbk : b ≠ k := by
          intro h
          exact (newKeys_mem ks (seen ++ [k]) b hb).1
            (List.mem_append.mpr (Or.inr (h ▸ List.mem_singleton_self _)))
        unfold firstIdx at *
        rw [List.findIdx_cons, List.findIdx_cons]
        have hak' : (k == a) = false := by simp [Ne.symm hak]
        have hbk' : (k == b) = false := by simp [Ne.symm hbk]
        simp [hak', hbk']
        omega

theorem mem_insertDescBy (f : α → Nat) (x : α) :
    ∀ (l : List α) (z : α), z ∈ insertDescBy f x l → z = x ∨ z ∈ l := by
  intro l
  induction l with
  | nil => intro z hz; simp [insertDescBy] at hz; exact Or.inl hz
  | cons y ys ih =>
    intro z hz
    simp only [insertDescBy] at hz
    by_cases hc : f y ≤ f x
    · simp only [hc, if_true] at hz
      rcases List.mem_cons.mp hz with rfl | hz
      · exact Or.inl rfl
      · exact Or.inr hz
    · simp only [hc, if_false] at hz
      rcases List.mem_cons.mp hz with rfl | hz
      · exact Or.inr (List.mem_cons_self _ _)
      · rcases ih z hz with h | h
        · exact Or.inl h
        · exact Or.inr (List.mem_cons_of_mem _ h)

theorem mem_sortDescBy (f : α → Nat) :
    ∀ (l : List α) (z : α), z ∈ sortDescBy f l → z ∈ l := by
  intro l
  induction l with
  | nil => intro z hz; simp [sortDescBy] at hz
  | cons x xs ih =>
    intro z hz
    simp only [sortDescBy] at hz
    rcases mem_insertDescBy f x _ z hz with rfl | hz
    · exact List.mem_cons_self _ _
    · exact List.mem_cons_of_mem _ (ih z hz)

theorem insertDescBy_sorted (f : α → Nat) (x : α) :
    ∀ (l : List α), l.Pairwise (fun a b => f b ≤ f a) →
    (insertDescBy f x l).Pairwise (fun a b => f b ≤ f a) := by
  intro l
  induction l with
  | nil => intro _; simp [insertDescBy]
  | cons y ys ih =>
    intro hp
    rcases List.pairwise_cons.mp hp with ⟨hy, hys⟩
    simp only [insertDescBy]
    by_cases hc : f y ≤ f x
    · simp only [hc, if_true]
      refine List.pairwise_cons.mpr ⟨?_, hp⟩
      intro z hz
      rcases List.mem_cons.mp hz with rfl | hz
      · exact hc
      · exact le_trans (hy z hz) hc
    · simp only [hc, if_false]
      refine List.pairwise_cons.mpr ⟨?_, ih hys⟩
      intro z hz
      rcases mem_insertDescBy f x ys z hz with rfl | hz
      · omega
      · exact hy z hz

theorem sortDescBy_sorted (f : α → Nat) :
    ∀ (l : List α), (sortDescBy f l).Pairwise (fun a b => f b ≤ f a) := by
  intro l
  induction l with
  | nil => simp [sortDescBy]
  | cons x xs ih => exact insertDescBy_sorted f x _ ih

theorem insertDescBy_stable (f g : α → Nat) (x : α) :
    ∀ (l : List α),
    l.Pairwise (fun a b => f b < f a ∨ (f a = f b ∧ g a < g b)) →
    l.Pairwise (fun a b => f b ≤ f a) →
    (∀ y ∈ l, g x < g y) →
    (insertDescBy f x l).Pairwise (fun a b => f b < f a ∨ (f a = f b ∧ g a < g b)) := by
  intro l
  induction l with
  | nil => intro _ _ _; simp [insertDescBy]
  | cons y ys ih =>
    intro hR hS hg
    rcases List.pairwise_cons.mp hR with ⟨hRy, hRys⟩
    rcases List.pairwise_cons.mp hS with ⟨hSy, hSys⟩
    simp only [insertDescBy]
    by_cases hc : f y ≤ f x
    · simp only [hc, if_true]
      refine List.pairwise_cons.mpr ⟨?_, hR⟩
      intro z hz
      rcases List.mem_cons.mp hz with rfl | hz
      · rcases Nat.lt_or_ge (f z) (f x) with h | h
        · exact Or.inl h
        · exact Or.inr ⟨by omega, hg z (List.mem_cons_self _ _)⟩
      · have hzy : f z ≤ f y := hSy z hz
        rcases Nat.lt_or_ge (f z) (f x) with h | h
        · exact Or.inl h
        · exact Or.inr ⟨by omega, hg z (List.mem_cons_of_mem _ hz)⟩
    · simp only [hc, if_false]
      refine List.pairwise_cons.mpr ⟨?_, ih hRys hSys
        (fun z hz => hg z (List.mem_cons_of_mem _ hz))⟩
      intro z hz
      rcases mem_insertDescBy f x ys z hz with rfl | hz
      · exact Or.inl (by omega)
      · exact hRy z hz

theorem sortDescBy_stable (f g : α → Nat) :
    ∀ (l : List α), l.Pairwise (fun a b => g a < g b) →
    (sortDescBy f l).Pairwise (fun a b => f b < f a ∨ (f a = f b ∧ g a < g b)) := by
  intro l
  induction l with
  | nil => intro _; simp [sortDescBy]
  | cons x xs ih =>
    intro hp
    rcases List.pairwise_cons.mp hp with ⟨hx, hxs⟩
    simp only [sortDescBy]
    exact insertDescBy_stable f g x _ (ih hxs) (sortDescBy_sorted f _)
      (fun y hy => hx y (mem_sortDescBy f xs y hy))

theorem keyErrorsAux_eq_bumpFold :
    ∀ (ks : List Keystroke) (prev : Option Keystroke) (m : List (String × KeyErrData)),
    keyErrorsAux prev m ks = bumpFold Prod.fst errUpd errIni m (errEventsFrom prev ks) := by
  intro ks
  induction ks with
  | nil => intro prev m; rfl
  | cons k rest ih =>
    intro prev m
    simp only [keyErrorsAux, errEventsFrom]
    by_cases he : errKeystroke k
    · simp only [he, if_true]
      rw [ih]
      rfl
    · simp only [he, if_false]
      rw [ih]
      rfl

theorem errEventsFrom_keys :
    ∀ (ks : List Keystroke) (prev : Option Keystroke),
    (errEventsFrom prev ks).map Prod.fst = errKeys ks := by
  intro ks
  induction ks with
  | nil => intro prev; rfl
  | cons k rest ih =>
    intro prev
    simp only [errEventsFrom, errKeys]
    by_cases he : errKeystroke k
    · simp only [he, if_true, List.filterMap_cons]
      simp [ih, errKeys]
    · simp only [he, if_false, List.filterMap_cons]
      simp [ih, errKeys]

theorem errsAt_bumpFold :
    ∀ (events : List (String × Option Int)) (m : List (String × KeyErrData)) (key : String),
    errsAt (bumpFold Prod.fst errUpd errIni m events) key =
      errsAt m key + (events.filter (fun e => e.1 == key)).length := by
  intro events
  induction events with
  | nil => intro m key; simp [bumpFold]
  | cons e rest ih =>
    intro m key
    have hstep : bumpFold Prod.fst errUpd errIni m (e :: rest) =
        bumpFold Prod.fst errUpd errIni (bumpAssoc (errUpd e) (errIni e) m e.1) rest := rfl
    rw [hstep, ih, List.filter_cons]
    by_cases hk : e.1 = key
    · subst hk
      have hsame : errsAt (bumpAssoc (errUpd e) (errIni e) m e.1) e.1 =
          errsAt m e.1 + 1 := by
        unfold errsAt
        rw [lookupA_bumpAssoc_same]
        cases h : lookupA m e.1 with
        | none => simp [h, errIni]
        | some v => simp [h, errUpd]
      simp [hsame]
      omega
    · have hother : errsAt (bumpAssoc (errUpd e) (errIni e) m e.1) key = errsAt m key := by
        unfold errsAt
        rw [lookupA_bumpAssoc_other _ _ _ _ _ (Ne.symm hk)]
      simp [hother, hk]

theorem errEventsFrom_count :
    ∀ (ks : List Keystroke) (prev : Option Keystroke) (key : String),
    ((errEventsFrom prev ks).filter (fun e => e.1 == key)).length = errCount ks key := by
  intro ks
  induction ks with
  | nil => intro prev key; rfl
  | cons k rest ih =>
    intro prev key
    have ihr := ih (some k) key
    unfold errCount at ihr ⊢
    simp only [errEventsFrom, List.filter_cons, List.filter_append]
    by_cases he : errKeystroke k
    · by_cases hk : (jsToLower k.expected) = key
      · simp [he, hk, ihr, List.filter_cons]
      · simp [he, hk, ihr, List.filter_cons]
    · simp [he, ihr]

theorem count_pos_of_mem_keys (events : List (String × Option Int)) (key : String)
    (h : key ∈ events.map Prod.fst) :
    0 < (events.filter (fun e => e.1 == key)).length := by
  rcases List.mem_map.mp h with ⟨e, he, rfl⟩
  have : e ∈ events.filter (fun e2 => e2.1 == e.1) := by
    rw [List.mem_filter]
    exact ⟨he, by simp⟩
  exact List.length_pos.mpr (List.ne_nil_of_mem this)

theorem firstIdx_cons_self (x : String) (K : List String) : firstIdx (x :: K) x = 0 := by
  unfold firstIdx
  rw [List.findIdx_cons]
  simp

theorem firstIdx_cons_ne (x a : String) (K : List String) (h : x ≠ a) :
    firstIdx (x :: K) a = firstIdx K a + 1 := by
  unfold firstIdx
  rw [List.findIdx_cons]
  have : (x == a) = false := by simp [h]
  simp [this]

theorem firstErrIdx_cons_hit (k : Keystroke) (rest : List Keystroke) (a : String)
    (he : errKeystroke k) (ha : (jsToLower k.expected) = a) :
    firstErrIdx (k :: rest) a = 0 := by
  unfold firstErrIdx
  rw [List.findIdx_cons]
  have : (errKeystroke k && (jsToLower k.expected) == a) = true := by simp [he, ha]
  simp [this]

theorem firstErrIdx_cons_miss (k : Keystroke) (rest : List Keystroke) (a : String)
    (h : (errKeystroke k && (jsToLower k.expected) == a) = false) :
    firstErrIdx (k :: rest) a = firstErrIdx rest a + 1 := by
  unfold firstErrIdx
  rw [List.findIdx_cons]
  simp [h]

theorem firstIdx_errKeys_lt :
    ∀ (ks : List Keystroke) (a b : String),
    firstIdx (errKeys ks) a < firstIdx (errKeys ks) b →
    firstErrIdx ks a < firstErrIdx ks b := by
  intro ks
  induction ks with
  | nil =>
    intro a b h
    simp [errKeys, firstIdx] at h
  | cons k rest ih =>
    intro a b h
    by_cases he : errKeystroke k
    · have hkeys : errKeys (k :: rest) = (jsToLower k.expected) :: errKeys rest := by
        simp [errKeys, List.filterMap_cons, he]
      rw [hkeys] at h
      by_cases ha : (jsToLower k.expected) = a
      · have hba : a ≠ b := by
          intro hab
          subst hab
          exact absurd h (lt_irrefl _)
        have hb : (jsToLower k.expected) ≠ b := fun hc => hba (ha ▸ hc ▸ rfl)
        rw [firstErrIdx_cons_hit k rest a he ha,
          firstErrIdx_cons_miss k rest b (by simp [hb])]
        omega
      · by_cases hb : (jsToLower k.expected) = b
        · exfalso
          rw [firstIdx_cons_ne _ _ _ ha] at h
          have h0 : firstIdx ((jsToLower k.expected) :: errKeys rest) b = 0 := by
            rw [hb]
            exact firstIdx_cons_self _ _
          rw [h0] at h
          omega
        · rw [firstIdx_cons_ne _ _ _ ha, firstIdx_cons_ne _ _ _ hb] at h
          rw [firstErrIdx_cons_miss k rest a (by simp [ha]),
            firstErrIdx_cons_miss k rest b (by simp [hb])]
          have := ih a b (by omega)
          omega
    · have hkeys : errKeys (k :: rest) = errKeys rest := by
        simp [errKeys, List.filterMap_cons, he]
      rw [hkeys] at h
      rw [firstErrIdx_cons_miss k rest a (by simp [he]),
        firstErrIdx_cons_miss k rest b (by simp [he])]
      have := ih a b h
      omega

theorem buildKeyErrors_shape (ks : List Keystroke) :
    keysOf (buildKeyErrors ks) = newKeys [] (errKeys ks) ∧
    (keysOf (buildKeyErrors ks)).Nodup ∧
    (buildKeyErrors ks).Pairwise
      (fun a b => firstIdx (errKeys ks) a.1 < firstIdx (errKeys ks) b.1) ∧
    ∀ p ∈ buildKeyErrors ks, p.2.errors = errCount ks p.1 ∧ 0 < errCount ks p.1 := by
  have hM : buildKeyErrors ks = bumpFold Prod.fst errUpd errIni [] (errEventsFrom none ks) :=
    keyErrorsAux_eq_bumpFold ks none []
  have hK : (errEventsFrom none ks).map Prod.fst = errKeys ks := errEventsFrom_keys ks none
  have hkeys : keysOf (buildKeyErrors ks) = newKeys [] (errKeys ks) := by
    rw [hM, bumpFold_keys, hK]
    rfl
  have hnodup : (keysOf (buildKeyErrors ks)).Nodup := by
    rw [hkeys]
    have := newKeys_nodup (errKeys ks) [] List.nodup_nil
    simpa using this
  refine ⟨hkeys, hnodup, ?_, ?_⟩
  · have hp := newKeys_pairwise (errKeys ks) []
    rw [← hkeys] at hp
    unfold keysOf at hp
    exact (@List.pairwise_map _ _ (fun e : String × KeyErrData => e.1)
      (fun a b => firstIdx (errKeys ks) a < firstIdx (errKeys ks) b) _).mp hp
  · intro p hp
    obtain ⟨k, v⟩ := p
    have hk : k ∈ keysOf (buildKeyErrors ks) := by
      unfold keysOf
      exact List.mem_map.mpr ⟨(k, v), hp, rfl⟩
    have hlook : lookupA (buildKeyErrors ks) k = some v :=
      lookupA_of_mem_nodup _ _ _ hnodup hp
    have herrs : errsAt (buildKeyErrors ks) k = v.errors := by
      unfold errsAt
      rw [hlook]
    have hcount : errsAt (buildKeyErrors ks) k = errCount ks k := by
      rw [hM, errsAt_bumpFold]
      have : errsAt [] k = 0 := rfl
      rw [this, errEventsFrom_count]
      omega
    have hpos : 0 < errCount ks k := by
      rw [← errEventsFrom_count ks none k]
      apply count_pos_of_mem_keys
      rw [hK]
      have := newKeys_mem (errKeys ks) [] k (hkeys ▸ hk)
      exact this.2
    exact ⟨by rw [← herrs, hcount], hpos⟩

theorem c4_struggling_keys_spec (ks : List Keystroke) (t : ℚ) (cw tw : Nat) :
    (analyzeSession ks t cw tw).strugglingKeys.length ≤ 5 ∧
    (analyzeSession ks t cw tw).strugglingKeys.Pairwise
      (fun a b => b.errorCount < a.errorCount ∨
        (a.errorCount = b.errorCount ∧ firstErrIdx ks a.key < firstErrIdx ks b.key)) ∧
    ∀ e ∈ (analyzeSession ks t cw tw).strugglingKeys,
      0 < e.errorCount ∧ e.errorCount = errCount ks e.key := by
  have hsk : (analyzeSession ks t cw tw).strugglingKeys =
      (sortDescBy (fun e => e.errorCount)
        ((buildKeyErrors ks).map toStrugglingKey)).take 5 := rfl
  obtain ⟨hkeys, hnodup, hpair, hcounts⟩ := buildKeyErrors_shape ks
  refine ⟨?_, ?_, ?_⟩
  · rw [hsk]
    exact List.length_take_le _ _
  · rw [hsk]
    apply List.Pairwise.sublist (List.take_sublist _ _)
    have hmap : ((buildKeyErrors ks).map toStrugglingKey).Pairwise
        (fun a b => firstIdx (errKeys ks) a.key < firstIdx (errKeys ks) b.key) := by
      rw [List.pairwise_map]
      exact hpair
    have hstable := sortDescBy_stable (fun e : StrugglingKey => e.errorCount)
      (fun e : StrugglingKey => firstIdx (errKeys ks) e.key) _ hmap
    apply hstable.imp
    intro a b hab
    rcases hab with h | ⟨h1, h2⟩
    · exact Or.inl h
    · exact Or.inr ⟨h1, firstIdx_errKeys_lt ks _ _ h2⟩
  · rw [hsk]
    intro e he
    have he1 : e ∈ sortDescBy (fun e => e.errorCount)
        ((buildKeyErrors ks).map toStrugglingKey) := List.mem_of_mem_take he
    have he2 : e ∈ (buildKeyErrors ks).map toStrugglingKey :=
      mem_sortDescBy _ _ _ he1
    rcases List.mem_map.mp he2 with ⟨p, hp, rfl⟩
    have hc := hcounts p hp
    have h1 : (toStrugglingKey p).errorCount = errCount ks p.1 := hc.1
    exact ⟨by rw [h1]; exact hc.2, h1⟩

theorem jsRound_eq_of (x : ℚ) (n : ℤ) (h1 : (n : ℚ) ≤ x + 1/2) (h2 : x + 1/2 < n + 1) :
    jsRound x = n := by
  unfold jsRound
  refine Int.floor_eq_iff.mpr ⟨by exact_mod_cast h1, by exact_mod_cast h2⟩

theorem jsRound_nonneg (x : ℚ) (h : 0 ≤ x) : 0 ≤ jsRound x := by
  unfold jsRound
  have : (0 : ℚ) ≤ x + 1/2 := by linarith
  exact Int.le_floor.mpr (by exact_mod_cast this)

theorem jsRound_le_hundred (x : ℚ) (h : x ≤ 100) : jsRound x ≤ 100 := by
  unfold jsRound
  have : x + 1/2 < 101 := by linarith
  have hlt : ⌊x + 1/2⌋ < 101 := Int.floor_lt.mpr (by exact_mod_cast this)
  omega

theorem c3_scorer_invariants (ks : List Keystroke) (t : ℚ) (cw tw : Nat) :
    (analyzeSession ks t cw tw).correctKeystrokes ≤
      (analyzeSession ks t cw tw).totalKeystrokes ∧
    0 ≤ (analyzeSession ks t cw tw).accuracy ∧
    (analyzeSession ks t cw tw).accuracy ≤ 100 ∧
    (analyzeSession ks t cw tw).accuracy =
      (if 0 < (analyzeSession ks t cw tw).totalKeystrokes then
        jsRound ((((analyzeSession ks t cw tw).correctKeystrokes : ℚ) /
          ((analyzeSession ks t cw tw).totalKeystrokes : ℚ)) * 100)
      else 0) := by
  have hct : (analyzeSession ks t cw tw).correctKeystrokes =
      (ks.filter (fun k => k.isCorrect)).length := rfl
  have htt : (analyzeSession ks t cw tw).totalKeystrokes = ks.length := rfl
  have hle : (ks.filter (fun k => k.isCorrect)).length ≤ ks.length :=
    List.length_filter_le _ _
  have hacc : (analyzeSession ks t cw tw).accuracy =
      (if 0 < ks.length then
        jsRound ((((ks.filter (fun k => k.isCorrect)).length : ℚ) / (ks.length : ℚ)) * 100)
      else 0) := rfl
  refine ⟨by rw [hct, htt]; exact hle, ?_, ?_, ?_⟩
  · rw [hacc]
    by_cases h0 : 0 < ks.length
    · simp only [h0, if_true]
      apply jsRound_nonneg
      positivity
    · simp [h0]
  · rw [hacc]
    by_cases h0 : 0 < ks.length
    · simp only [h0, if_true]
      apply jsRound_le_hundred
      have hlen : (0 : ℚ) < (ks.length : ℚ) := by exact_mod_cast h0
      have hdiv : ((ks.filter (fun k => k.isCorrect)).length : ℚ) / (ks.length : ℚ) ≤ 1 := by
        rw [div_le_one hlen]
        exact_mod_cast hle
      nlinarith
    · simp [h0]
  · rw [hacc, hct, htt]

theorem c8_empty_session (t : ℚ) (cw tw : Nat) :
    analyzeSession [] t cw tw =
      { wpm := 0, accuracy := 0, strugglingKeys := [], totalKeystrokes := 0,
        correctKeystrokes := 0, timeElapsed := t, completedWords := cw,
        totalWords := tw } := by
  unfold analyzeSession
  simp only [List.length_nil, List.filter_nil, lt_irrefl, if_false]
  have hwpm : (if 0 < t / 60 then jsRound ((((0 : Nat) : ℚ) / 5) / (t / 60)) else 0) = 0 := by
    by_cases h : 0 < t / 60
    · simp only [h, if_true]
      have : (((0 : Nat) : ℚ) / 5) / (t / 60) = 0 := by
        norm_num
      rw [this]
      apply jsRound_eq_of <;> norm_num
    · simp [h]
  have hsk : (sortDescBy (fun e => e.errorCount)
      ((buildKeyErrors []).map toStrugglingKey)).take 5 = [] := rfl
  rw [SessionResult.mk.injEq]
  refine ⟨?_, rfl, hsk, rfl, rfl, rfl, rfl, rfl⟩
  exact hwpm

theorem c6_counterexample :
    (analyzeSession (List.replicate 60 kOK) 60 0 0).wpm = 12 ∧ (12 : ℤ) ≠ 60 := by
  constructor
  · have hcount : ((List.replicate 60 kOK).filter (fun k => k.key != "Backspace")).length
        = 60 := by decide
    have hwpm : (analyzeSession (List.replicate 60 kOK) 60 0 0).wpm =
        if 0 < (60 : ℚ) / 60 then
          jsRound (((((List.replicate 60 kOK).filter
            (fun k => k.key != "Backspace")).length : ℚ) / 5) / ((60 : ℚ) / 60))
        else 0 := rfl
    rw [hwpm, hcount, if_pos (by norm_num)]
    have hv : (((60 : ℕ) : ℚ) / 5) / ((60 : ℚ) / 60) = 12 := by norm_num
    rw [hv]
    apply jsRound_eq_of <;> norm_num
  · decide

theorem c6_wpm_three_hundred (ks : List Keystroke) (cw tw : Nat)
    (h1 : ks.length = 300)
    (h2 : ∀ k ∈ ks, k.isCorrect = true ∧ k.key ≠ "Backspace") :
    (analyzeSession ks 60 cw tw).wpm = 60 := by
  have hfilter : ks.filter (fun k => k.key != "Backspace") = ks := by
    apply List.filter_eq_self.mpr
    intro k hk
    simpa using (h2 k hk).2
  have hwpm : (analyzeSession ks 60 cw tw).wpm =
      if 0 < (60 : ℚ) / 60 then
        jsRound ((((ks.filter (fun k => k.key != "Backspace")).length : ℚ) / 5) /
          ((60 : ℚ) / 60))
      else 0 := rfl
  rw [hwpm, hfilter, h1, if_pos (by norm_num)]
  have hv : (((300 : ℕ) : ℚ) / 5) / ((60 : ℚ) / 60) = 60 := by norm_num
  rw [hv]
  apply jsRound_eq_of <;> norm_num

theorem c6_witness :
    (List.replicate 300 kOK).length = 300 ∧
    (∀ k ∈ List.replicate 300 kOK, k.isCorrect = true ∧ k.key ≠ "Backspace") ∧
    (analyzeSession (List.replicate 300 kOK) 60 0 0).wpm = 60 :=
  ⟨by decide, by decide, c6_wpm_three_hundred (List.replicate 300 kOK) 0 0
    (by decide) (by decide)⟩

theorem c10_empty_expected_bucketed :
    (analyzeSession ksEmptyExp 1 0 0).strugglingKeys =
      [{ key := "", errorCount := 1, avgDelay := 0 }] ∧
    (aggregatedPerformance [chEmptyExp]).map (fun p => p.recentErrors) = some [] := by
  exact ⟨rfl, rfl⟩

theorem c5_recent_errors_drops_newest :
    (aggregatedPerformance c5Challenges).map (fun p => p.recentErrors) =
      some (List.replicate 50 "a") ∧
    "b" ∉ List.replicate 50 "a" := by
  refine ⟨rfl, by decide⟩

theorem foldl_addKeyCount_eq_bumpFold (skAll : List StrugglingKey)
    (m : List (String × Nat)) :
    skAll.foldl addKeyCount m = bumpFold aggKeyOf aggUpd aggIni m skAll := rfl

theorem countAt_bumpFold :
    ∀ (events : List StrugglingKey) (m : List (String × Nat)) (key : String),
    countAt (bumpFold aggKeyOf aggUpd aggIni m events) key =
      countAt m key +
        ((events.filter (fun sk => sk.key == key)).map (fun sk => sk.errorCount)).sum := by
  intro events
  induction events with
  | nil => intro m key; simp [bumpFold, countAt]
  | cons e rest ih =>
    intro m key
    have hstep : bumpFold aggKeyOf aggUpd aggIni m (e :: rest) =
        bumpFold aggKeyOf aggUpd aggIni (bumpAssoc (aggUpd e) (aggIni e) m e.key) rest := rfl
    rw [hstep, ih, List.filter_cons]
    by_cases hk : e.key = key
    · subst hk
      have hsame : countAt (bumpAssoc (aggUpd e) (aggIni e) m e.key) e.key =
          countAt m e.key + e.errorCount := by
        unfold countAt
        rw [lookupA_bumpAssoc_same]
        cases h : lookupA m e.key with
        | none => simp [h, aggIni]
        | some v => simp [h, aggUpd]
      simp [hsame]
      omega
    · have hother : countAt (bumpAssoc (aggUpd e) (aggIni e) m e.key) key = countAt m key := by
        unfold countAt
        rw [lookupA_bumpAssoc_other _ _ _ _ _ (Ne.symm hk)]
      simp [hother, hk]

theorem c7_aggregator_spec (cs : List Challenge) :
    (aggregatedPerformance cs = none ↔ ∀ c ∈ cs, c.result = none) ∧
    ((∃ c ∈ cs, c.result ≠ none) →
      ∃ p, aggregatedPerformance cs = some p ∧
        p.accuracy = jsRound (((((scoredChallenges cs).map
            (fun q => q.2.accuracy)).sum : Int) : ℚ) /
          ((scoredChallenges cs).length : ℚ)) ∧
        p.strugglingKeys.length ≤ 8 ∧
        p.strugglingKeys.Pairwise (fun a b => b.errorCount ≤ a.errorCount) ∧
        ∀ e ∈ p.strugglingKeys, e.errorCount = sumErrFor cs e.key) := by
  constructor
  · constructor
    · intro hnone c hc
      unfold aggregatedPerformance at hnone
      by_cases h0 : cs.length = 0
      · rw [List.length_eq_zero] at h0
        subst h0
        simp at hc
      · simp only [h0, if_false] at hnone
        by_cases hs : (scoredChallenges cs).length = 0
        · rw [List.length_eq_zero] at hs
          unfold scoredChallenges at hs
          have := List.filterMap_eq_nil_iff.mp hs c hc
          cases hres : c.result with
          | none => rfl
          | some r => rw [hres] at this; simp at this
        · simp only [hs, if_false] at hnone
          exact absurd hnone (by simp)
    · intro hall
      have hs : scoredChallenges cs = [] := by
        unfold scoredChallenges
        rw [List.filterMap_eq_nil_iff]
        intro c hc
        rw [hall c hc]
        rfl
      unfold aggregatedPerformance
      by_cases h0 : cs.length = 0
      · simp [h0]
      · simp [h0, hs]
  · intro hex
    rcases hex with ⟨c, hc, hres⟩
    have h0 : ¬cs.length = 0 := by
      intro h
      rw [List.length_eq_zero] at h
      subst h
      simp at hc
    cases hr : c.result with
    | none => exact absurd hr hres
    | some r =>
      have hmem : (c, r) ∈ scoredChallenges cs := by
        unfold scoredChallenges
        apply List.mem_filterMap.mpr
        exact ⟨c, hc, by rw [hr]; rfl⟩
      have hs : ¬(scoredChallenges cs).length = 0 := by
        intro h
        rw [List.length_eq_zero] at h
        rw [h] at hmem
        simp at hmem
      have hsome : aggregatedPerformance cs = some
          { strugglingKeys :=
              (sortDescBy (fun e => e.errorCount)
                ((((scoredChallenges cs).flatMap (fun p => p.2.strugglingKeys)).foldl
                  addKeyCount []).map (fun e => KeyCount.mk e.1 e.2))).take 8,
            accuracy := jsRound
              (((((scoredChallenges cs).map (fun p => p.2.accuracy)).sum : Int) : ℚ) /
                ((scoredChallenges cs).length : ℚ)),
            wpm := jsRound
              (((((scoredChallenges cs).map (fun p => p.2.wpm)).sum : Int) : ℚ) /
                ((scoredChallenges cs).length : ℚ)),
            recentErrors := jsSliceLast 50
              ((scoredChallenges cs).flatMap (fun p =>
                p.1.keystrokes.filterMap
                  (fun k => if recentErrKeystroke k then some k.expected else none))) } := by
        unfold aggregatedPerformance
        simp only [h0, if_false, hs]
      refine ⟨_, hsome, rfl, ?_, ?_, ?_⟩
      · exact List.length_take_le _ _
      · apply List.Pairwise.sublist (List.take_sublist _ _)
        have := sortDescBy_sorted (fun e : KeyCount => e.errorCount)
          ((((scoredChallenges cs).flatMap (fun p => p.2.strugglingKeys)).foldl
            addKeyCount []).map (fun e => KeyCount.mk e.1 e.2))
        exact this
      · intro e he
        have he1 := List.mem_of_mem_take he
        have he2 := mem_sortDescBy _ _ _ he1
        rcases List.mem_map.mp he2 with ⟨q, hq, rfl⟩
        have hnodup : (keysOf ((((scoredChallenges cs).flatMap
            (fun p => p.2.strugglingKeys)).foldl addKeyCount []))).Nodup := by
          rw [foldl_addKeyCount_eq_bumpFold, bumpFold_keys]
          have := newKeys_nodup (((scoredChallenges cs).flatMap
            (fun p => p.2.strugglingKeys)).map aggKeyOf) [] List.nodup_nil
          simpa using this
        have hlook : lookupA (((scoredChallenges cs).flatMap
            (fun p => p.2.strugglingKeys)).foldl addKeyCount []) q.1 = some q.2 :=
          lookupA_of_mem_nodup _ _ _ hnodup hq
        have hval : countAt (((scoredChallenges cs).flatMap
            (fun p => p.2.strugglingKeys)).foldl addKeyCount []) q.1 = q.2 := by
          unfold countAt
          rw [hlook]
        have hsum := countAt_bumpFold ((scoredChallenges cs).flatMap
          (fun p => p.2.strugglingKeys)) [] q.1
        rw [← foldl_addKeyCount_eq_bumpFold] at hsum
        rw [hval] at hsum
        have hz : countAt [] q.1 = 0 := rfl
        rw [hz] at hsum
        unfold sumErrFor
        have hkey : (KeyCount.mk q.1 q.2).key = q.1 := rfl
        have hec : (KeyCount.mk q.1 q.2).errorCount = q.2 := rfl
        rw [hkey, hec]
        omega

theorem c7_witness :
    (∃ c ∈ c7List, c.result ≠ none) ∧
    (∃ p, aggregatedPerformance c7List = some p ∧
      p.accuracy = jsRound (((((scoredChallenges c7List).map
          (fun q => q.2.accuracy)).sum : Int) : ℚ) /
        ((scoredChallenges c7List).length : ℚ)) ∧
      p.strugglingKeys.length ≤ 8 ∧
      p.strugglingKeys.Pairwise (fun a b => b.errorCount ≤ a.errorCount) ∧
      ∀ e ∈ p.strugglingKeys, e.errorCount = sumErrFor c7List e.key) :=
  ⟨by decide, (c7_aggregator_spec c7List).2 (by decide)⟩

end TouchTyping
